import Mathlib

/-!
Verification of the Aletheia document-ingestion and context-retrieval pipeline
(`core/corememory_system.py`).

Embedding conventions:
* Python `str` is modelled as `List Char` (`Str` below); Python `int` as `Int`.
* The Embedding Provider (`get_openai_embedding`, which can fail and return
  `None`) is an oracle parameter `embed : Str → Option α`; the embedding
  vectors themselves are opaque, hence the type parameter `α`.
* The filesystem reads performed by `load_text_file` / `load_docx_file`
  (both return the text or `None` on any error) are an oracle
  `fs : Str → Option Str`.
* The ChromaDB collection is an external collaborator; it is modelled from the
  spec's Vector Store boundary as a list of records with batched
  upsert-by-id writes.
* Python functions that fall off the end return `None`; this is modelled by an
  `Option Nat` result component that is always `none`.
-/

namespace Aletheia

/-- Python strings are modelled as lists of characters. -/
abbrev Str := List Char

/-- Resolution of one Python slice bound: a negative index counts from the end
(clamped at 0), a non-negative one is clamped at the length. -/
def pyIndex (len : Nat) (i : Int) : Nat :=
  if i < 0 then ((len : Int) + i).toNat else min i.toNat len

/-- Python slice `s[a:b]` (step 1). -/
def pySlice (s : Str) (a b : Int) : Str :=
  (s.take (pyIndex s.length b)).drop (pyIndex s.length a)

/-- The `while start_index < text_len` loop of `chunk_text`
(`corememory_system.py` lines 72-79): append `text[start_index:end_index]`
with `end_index = min(start_index + chunk_size, text_len)`; stop if the chunk
reached the end of the text; advance by `chunk_size - chunk_overlap`; if that
step is `≤ 0`, print a warning and break (the appended chunk is kept).

The Python locals `end_index` and `chunk` are written out in place.  The
`fuel` argument only makes the recursion structural (so that the function
reduces definitionally); the loop iterates at most `text.length` times, since
`start_index` strictly increases while it loops, so the fuel of the call in
`chunk_text` is never exhausted (`chunkLoop_eq_of_last`,
`chunkLoop_eq_of_step` and the theorems below never reach the fuel-0 case). -/
def chunkLoop (text : Str) (chunk_size chunk_overlap : Int) :
    Int → Nat → List Str
  | _, 0 => []
  | start_index, fuel + 1 =>
    if start_index < (text.length : Int) then
      if min (start_index + chunk_size) (text.length : Int) = (text.length : Int) then
        [pySlice text start_index (min (start_index + chunk_size) (text.length : Int))]
      else if chunk_size - chunk_overlap ≤ 0 then
        [pySlice text start_index (min (start_index + chunk_size) (text.length : Int))]
      else pySlice text start_index (min (start_index + chunk_size) (text.length : Int)) ::
        chunkLoop text chunk_size chunk_overlap
          (start_index + (chunk_size - chunk_overlap)) fuel
    else []

/-- `chunk_text(text, chunk_size=1200, chunk_overlap=150)`
(`corememory_system.py` lines 67-80): empty text yields `[]`, otherwise the
sliding-window loop starting at offset 0. -/
def chunk_text (text : Str) (chunk_size : Int := 1200) (chunk_overlap : Int := 150) :
    List Str :=
  if text = [] then [] else chunkLoop text chunk_size chunk_overlap 0 text.length

/-- Concatenation of a chunk list with the leading `ov` characters of every
chunk removed. -/
def dropJoin (ov : Nat) (chunks : List Str) : Str :=
  (chunks.map (List.drop ov)).flatten

/-- Concatenation of a chunk list with the leading `ov` characters of every
chunk but the first removed: the de-overlapped reassembly of the text. -/
def headJoin (ov : Nat) (chunks : List Str) : Str :=
  match chunks with
  | [] => []
  | c :: rest => c ++ dropJoin ov rest

theorem pyIndex_nonneg (len : Nat) (i : Int) (h : 0 ≤ i) :
    pyIndex len i = min i.toNat len := by
  simp [pyIndex, not_lt.mpr h]

theorem take_min_length {α : Type _} (l : List α) (n : Nat) :
    l.take (min n l.length) = l.take n := by
  rcases le_or_lt n l.length with h | h
  · rw [min_eq_left h]
  · rw [min_eq_right h.le, List.take_length, List.take_of_length_le h.le]

theorem pySlice_nonneg (s : Str) (a b : Int) (ha : 0 ≤ a) (hb : 0 ≤ b) :
    pySlice s a b = (s.take b.toNat).drop a.toNat := by
  rw [pySlice, pyIndex_nonneg _ _ ha, pyIndex_nonneg _ _ hb, take_min_length]
  rcases le_or_lt a.toNat s.length with h | h
  · rw [min_eq_left h]
  · rw [min_eq_right h.le,
      List.drop_of_length_le (by rw [List.length_take]; omega),
      List.drop_of_length_le (by rw [List.length_take]; omega)]

theorem splice_drop {α : Type _} (l : List α) (k m : Nat) (hkm : k ≤ m)
    (hm : m ≤ l.length) : (l.take m).drop k ++ l.drop m = l.drop k := by
  conv_rhs => rw [← List.take_append_drop m l]
  rw [List.drop_append_eq_append_drop, List.length_take, min_eq_left hm,
    Nat.sub_eq_zero_of_le hkm, List.drop_zero]

/-- One unfolding of the loop in the case where the current chunk reaches the
end of the text: the loop stops with that chunk. -/
theorem chunkLoop_eq_of_last (text : Str) (sz ov : Int) (s : Nat) (f : Nat)
    (hs : s < text.length) (hend : (text.length : Int) ≤ (s : Int) + sz)
    (hf : 0 < f) :
    chunkLoop text sz ov (s : Int) f = [text.drop s] := by
  obtain ⟨f, rfl⟩ : ∃ g, f = g + 1 := ⟨f - 1, by omega⟩
  have h1 : ((s : Int) < (text.length : Int)) := by omega
  have h2 : min ((s : Int) + sz) (text.length : Int) = (text.length : Int) :=
    min_eq_right hend
  rw [chunkLoop, if_pos h1, if_pos h2, h2,
    pySlice_nonneg _ _ _ (by omega) (by omega)]
  simp

/-- One unfolding of the loop in the case where the chunk stops short of the
end: the loop records `text[s : s+sz]` and continues at `s + (sz - ov)`. -/
theorem chunkLoop_eq_of_step (text : Str) (sz ov : Int) (s : Nat) (f : Nat)
    (hov : 0 ≤ ov) (hsz : ov < sz) (hlt : (s : Int) + sz < (text.length : Int)) :
    chunkLoop text sz ov (s : Int) (f + 1) =
      ((text.take (s + sz.toNat)).drop s) ::
        chunkLoop text sz ov ((s + (sz.toNat - ov.toNat) : Nat) : Int) f := by
  have h1 : ((s : Int) < (text.length : Int)) := by omega
  have h2 : min ((s : Int) + sz) (text.length : Int) = (s : Int) + sz :=
    min_eq_left hlt.le
  have h3 : ¬ (min ((s : Int) + sz) (text.length : Int) = (text.length : Int)) := by
    rw [h2]; omega
  have h4 : ¬ (sz - ov ≤ 0) := by omega
  have e1 : ((s : Int) + sz).toNat = s + sz.toNat := by omega
  have e2 : ((s : Int)).toNat = s := by omega
  have e3 : (s : Int) + (sz - ov) = ((s + (sz.toNat - ov.toNat) : Nat) : Int) := by omega
  rw [chunkLoop, if_pos h1, if_neg h3, if_neg h4, h2,
    pySlice_nonneg _ _ _ (by omega) (by omega), e1, e2, e3]

/-- Removing the leading overlap of every chunk the loop produces from
position `s` and concatenating yields exactly `text[s+overlap:]`. -/
theorem chunkLoop_dropJoin (text : Str) (sz ov : Int) (hov : 0 ≤ ov)
    (hsz : ov < sz) :
    ∀ f s : Nat, text.length - s ≤ f → s < text.length →
      dropJoin ov.toNat (chunkLoop text sz ov (s : Int) f)
        = text.drop (s + ov.toNat) := by
  intro f
  induction f with
  | zero => intro s hf hs; omega
  | succ f ih =>
    intro s hf hs
    rcases le_or_lt (text.length : Int) ((s : Int) + sz) with hend | hlt
    · rw [chunkLoop_eq_of_last text sz ov s (f + 1) hs hend (by omega)]
      simp only [dropJoin, List.map_cons, List.map_nil, List.flatten_cons,
        List.flatten_nil, List.append_nil, List.drop_drop]
    · rw [chunkLoop_eq_of_step text sz ov s f hov hsz hlt]
      simp only [dropJoin, List.map_cons, List.flatten_cons]
      have hrec := ih (s + (sz.toNat - ov.toNat)) (by omega) (by omega)
      simp only [dropJoin] at hrec
      rw [hrec, List.drop_drop]
      have e1 : s + (sz.toNat - ov.toNat) + ov.toNat = s + sz.toNat := by omega
      rw [e1]
      exact splice_drop text (s + ov.toNat) (s + sz.toNat) (by omega) (by omega)

/-- The chunks the loop produces from position `s`, reassembled with the
leading overlap of every chunk but the first removed, give `text[s:]`. -/
theorem chunkLoop_headJoin (text : Str) (sz ov : Int) (hov : 0 ≤ ov)
    (hsz : ov < sz) (f s : Nat) (hf : text.length - s ≤ f)
    (hs : s < text.length) :
    headJoin ov.toNat (chunkLoop text sz ov (s : Int) f) = text.drop s := by
  rcases le_or_lt (text.length : Int) ((s : Int) + sz) with hend | hlt
  · rw [chunkLoop_eq_of_last text sz ov s f hs hend (by omega)]
    simp [headJoin, dropJoin]
  · obtain ⟨f, rfl⟩ : ∃ g, f = g + 1 := ⟨f - 1, by omega⟩
    rw [chunkLoop_eq_of_step text sz ov s f hov hsz hlt]
    simp only [headJoin]
    rw [chunkLoop_dropJoin text sz ov hov hsz f _ (by omega) (by omega)]
    have e1 : s + (sz.toNat - ov.toNat) + ov.toNat = s + sz.toNat := by omega
    rw [e1]
    exact splice_drop text s (s + sz.toNat) (by omega) (by omega)

/-- Number of chunks the loop produces from position `s`, in the
well-configured case, while more than `overlap` characters remain:
`⌈(text.length - s - overlap) / (size - overlap)⌉`. -/
theorem chunkLoop_length (text : Str) (sz ov : Int) (hov : 0 ≤ ov)
    (hsz : ov < sz) :
    ∀ f s : Nat, text.length - s ≤ f → s + ov.toNat < text.length →
      (chunkLoop text sz ov (s : Int) f).length
        = (text.length - s - ov.toNat + (sz.toNat - ov.toNat) - 1)
            / (sz.toNat - ov.toNat) := by
  intro f
  induction f with
  | zero => intro s hf hs; omega
  | succ f ih =>
    intro s hf hs
    have hb : 0 < sz.toNat - ov.toNat := by omega
    rcases le_or_lt (text.length : Int) ((s : Int) + sz) with hend | hlt
    · rw [chunkLoop_eq_of_last text sz ov s (f + 1) (by omega) hend (by omega)]
      have ha : text.length - s - ov.toNat + (sz.toNat - ov.toNat) - 1
          = (text.length - s - ov.toNat - 1) + (sz.toNat - ov.toNat) := by omega
      rw [List.length_singleton, ha, Nat.add_div_right _ hb,
        Nat.div_eq_of_lt (by omega)]
    · rw [chunkLoop_eq_of_step text sz ov s f hov hsz hlt]
      rw [List.length_cons, ih (s + (sz.toNat - ov.toNat)) (by omega) (by omega)]
      have ha : text.length - s - ov.toNat + (sz.toNat - ov.toNat) - 1
          = (text.length - (s + (sz.toNat - ov.toNat)) - ov.toNat
              + (sz.toNat - ov.toNat) - 1) + (sz.toNat - ov.toNat) := by omega
      rw [ha, Nat.add_div_right _ hb]

/-- With `size - overlap ≤ 0` and non-empty text, the loop emits the single
chunk `text[0:min(size, len)]` and then breaks (via the end-of-text test or
the warn-and-break guard). -/
theorem chunkLoop_nonpos_step (text : Str) (sz ov : Int) (f : Nat)
    (h : sz ≤ ov) (hlen : 0 < text.length) (hf : 0 < f) :
    chunkLoop text sz ov 0 f = [pySlice text 0 (min sz (text.length : Int))] := by
  obtain ⟨f, rfl⟩ : ∃ g, f = g + 1 := ⟨f - 1, by omega⟩
  have h1 : (0 : Int) < (text.length : Int) := by omega
  rw [chunkLoop, if_pos h1]
  simp only [zero_add]
  by_cases he : min sz (text.length : Int) = (text.length : Int)
  · rw [if_pos he]
  · rw [if_neg he, if_pos (by omega : sz - ov ≤ 0)]

/-- For non-empty text the loop always emits at least one chunk. -/
theorem chunkLoop_ne_nil (text : Str) (sz ov : Int) (f : Nat)
    (hlen : 0 < text.length) (hf : 0 < f) :
    chunkLoop text sz ov 0 f ≠ [] := by
  obtain ⟨f, rfl⟩ : ∃ g, f = g + 1 := ⟨f - 1, by omega⟩
  have h1 : (0 : Int) < (text.length : Int) := by omega
  rw [chunkLoop, if_pos h1]
  split
  · simp
  · split <;> simp

/-- C1, counterexample: chunking `"ab"` with `size = 1 ≤ overlap = 1` does not
fail fast with a configuration error and zero iterations — the loop runs one
iteration and produces the chunk `"a"` before the warn-and-break guard stops
it. -/
theorem chunk_text_nonpos_counterexample :
    chunk_text "ab".data 1 1 = ["a".data] ∧ chunk_text "ab".data 1 1 ≠ [] := by
  decide

/-- C1, amended: for every text and integers `size ≤ overlap`, `chunk_text`
does not raise; it returns normally after at most one loop iteration (a
printed warning plus `break`), producing zero chunks for empty text and
exactly one chunk otherwise. -/
theorem chunk_text_nonpos_single_iteration (text : Str) (sz ov : Int)
    (h : sz ≤ ov) :
    (chunk_text text sz ov).length = if text = [] then 0 else 1 := by
  by_cases hne : text = []
  · simp [chunk_text, hne]
  · have hlen : 0 < text.length := List.length_pos.mpr hne
    rw [chunk_text, if_neg hne,
      chunkLoop_nonpos_step text sz ov text.length h hlen hlen, if_neg hne]
    rfl

theorem chunk_text_nonpos_single_iteration_witness :
    (1 : Int) ≤ 1 ∧
      (chunk_text "ab".data 1 1).length = if "ab".data = ([] : Str) then 0 else 1 :=
  ⟨by decide, chunk_text_nonpos_single_iteration "ab".data 1 1 (by decide)⟩

/-- C10: `chunk_text` is a total function into finite chunk lists (this
definition is structurally recursive and never exhausts its fuel), and in the
mis-configured case `size ≤ overlap`, for non-empty text longer than `size`,
it returns exactly one chunk, namely the Python slice `text[0:min(size,len)]`
— which for `0 ≤ size` is the first `min(size, len(text))` characters. -/
theorem chunk_text_nonpos_single_chunk (text : Str) (sz ov : Int)
    (h : sz ≤ ov) (hne : text ≠ []) (hlong : sz < (text.length : Int)) :
    chunk_text text sz ov = [pySlice text 0 (min sz (text.length : Int))] ∧
    (0 ≤ sz → chunk_text text sz ov = [text.take (min sz.toNat text.length)]) := by
  have hlen : 0 < text.length := List.length_pos.mpr hne
  have hmain : chunk_text text sz ov
      = [pySlice text 0 (min sz (text.length : Int))] := by
    rw [chunk_text, if_neg hne]
    exact chunkLoop_nonpos_step text sz ov text.length h hlen hlen
  refine ⟨hmain, fun hpos => ?_⟩
  rw [hmain, pySlice_nonneg _ _ _ le_rfl (by omega)]
  have e : (min sz (text.length : Int)).toNat = min sz.toNat text.length := by
    omega
  rw [e]
  simp

theorem chunk_text_nonpos_single_chunk_witness :
    chunk_text "abc".data 1 2 = [pySlice "abc".data 0 (min 1 ("abc".data.length : Int))] ∧
    (0 ≤ (1 : Int) →
      chunk_text "abc".data 1 2 = ["abc".data.take (min (1 : Int).toNat "abc".data.length)]) :=
  chunk_text_nonpos_single_chunk "abc".data 1 2 (by decide) (by decide) (by decide)

/-- C8, counterexample: the whitespace-only text `" "` does not chunk to the
empty sequence — `chunk_text` tests only `if not text`, so blank text is
chunked like any other and yields `[" "]`. -/
theorem chunk_text_blank_counterexample :
    chunk_text " ".data 1200 150 = [" ".data] ∧ chunk_text " ".data 1200 150 ≠ [] := by
  decide

/-- C8, amended: chunking yields the empty sequence exactly for empty input
text; whitespace-only (blank) input is non-empty and always yields chunks. -/
theorem chunk_text_eq_nil_iff (text : Str) (sz ov : Int) :
    chunk_text text sz ov = [] ↔ text = [] := by
  constructor
  · intro h
    by_contra hne
    have hlen : 0 < text.length := List.length_pos.mpr hne
    rw [chunk_text, if_neg hne] at h
    exact chunkLoop_ne_nil text sz ov text.length hlen hlen h
  · intro h
    simp [chunk_text, h]

/-- C2, counterexample: for empty text the claimed chunk count is 1 (the
`len(text) > overlap` guard fails, so the claim's "otherwise" branch applies),
but `chunk_text` returns no chunks at all. -/
theorem chunk_text_count_counterexample :
    (chunk_text ([] : Str) 2 0).length = 0 ∧ (chunk_text ([] : Str) 2 0).length ≠ 1 := by
  decide

/-- C2, amended: for `size > overlap ≥ 0`, concatenating the chunks with each
chunk's leading overlap region removed (the first chunk, which no chunk
precedes, kept whole) reconstructs the text exactly; the chunk count is
`⌈(len - overlap) / (size - overlap)⌉` when `len > overlap` and `1` when
`0 < len ≤ overlap`, but `0` — not 1 as claimed — for empty text. -/
theorem chunk_text_reconstruction_and_count (text : Str) (sz ov : Int)
    (hov : 0 ≤ ov) (hsz : ov < sz) :
    headJoin ov.toNat (chunk_text text sz ov) = text ∧
    (ov < (text.length : Int) →
      (chunk_text text sz ov).length
        = (text.length - ov.toNat + (sz.toNat - ov.toNat) - 1)
            / (sz.toNat - ov.toNat)) ∧
    (text ≠ [] → (text.length : Int) ≤ ov → (chunk_text text sz ov).length = 1) ∧
    (text = [] → chunk_text text sz ov = []) := by
  refine ⟨?_, ?_, ?_, fun h => by simp [chunk_text, h]⟩
  · by_cases hne : text = []
    · simp [chunk_text, hne, headJoin]
    · have hlen : 0 < text.length := List.length_pos.mpr hne
      rw [chunk_text, if_neg hne]
      have h := chunkLoop_headJoin text sz ov hov hsz text.length 0 (by omega) hlen
      simpa using h
  · intro hovlen
    have hne : text ≠ [] := by
      intro h
      subst h
      simp at hovlen
      omega
    rw [chunk_text, if_neg hne]
    have h := chunkLoop_length text sz ov hov hsz text.length 0 (by omega) (by omega)
    simpa using h
  · intro hne hovlen
    have hlen : 0 < text.length := List.length_pos.mpr hne
    rw [chunk_text, if_neg hne]
    have h0 := chunkLoop_eq_of_last text sz ov 0 text.length hlen (by omega) hlen
    simp only [Nat.cast_zero] at h0
    rw [h0]
    rfl

theorem chunk_text_reconstruction_and_count_witness :
    headJoin 1 (chunk_text "abcde".data 3 1) = "abcde".data ∧
    (chunk_text "abcde".data 3 1).length = 2 := by
  have h := chunk_text_reconstruction_and_count "abcde".data 3 1 (by decide) (by decide)
  refine ⟨h.1, ?_⟩
  have h2 := h.2.1 (by decide)
  rw [h2]
  decide

/-!
## Vector Store model

The ChromaDB collection is an external collaborator.  Modelled from the spec:
the Vector Store boundary stores `(id, vector, document_text, metadata)`
tuples and `collection.add` is a batched upsert — a record whose id is already
present overwrites the prior record with that id ("re-ingesting the same
title overwrites prior records with matching ids"); a fresh id is appended.
Embedding vectors are opaque, hence the type parameter `α`.
-/

/-- Union of the metadata dictionaries built by `ingest_document`
(lines 122-126: file name, title, content type, sequence id, text preview)
and by `ingest_interaction_text` (lines 203-209: same fields with a timestamp
in place of the preview). -/
structure Metadata where
  source_file_name : Str
  document_title : Str
  content_type : Str
  chunk_sequence_id : Nat
  original_text_preview : Option Str
  timestamp : Option Str
deriving DecidableEq

/-- One persisted `(id, embedding, document, metadata)` tuple. -/
structure StoredRecord (α : Type) where
  id : Str
  embedding : α
  document : Str
  metadata : Metadata
deriving DecidableEq

/-- The contents of the ChromaDB collection. -/
abbrev Store (α : Type) := List (StoredRecord α)

/-- Upsert of one record: overwrite every stored record carrying the same id,
or append if the id is fresh. -/
def upsertOne {α : Type} (s : Store α) (r : StoredRecord α) : Store α :=
  if s.any (fun x => x.id = r.id) then
    s.map (fun x => if x.id = r.id then r else x)
  else s ++ [r]

/-- `collection.add` on a batch of records: upsert them in order. -/
def addRecords {α : Type} (s : Store α) (rs : List (StoredRecord α)) : Store α :=
  rs.foldl upsertOne s

/-- Whether some stored record carries the id `i`. -/
def presentId {α : Type} (s : Store α) (i : Str) : Bool :=
  s.any (fun x => x.id = i)

/-- The last record of a batch that carries the id `i`, if any. -/
def lastWith {α : Type} : List (StoredRecord α) → Str → Option (StoredRecord α)
  | [], _ => none
  | r :: t, i =>
    match lastWith t i with
    | some y => some y
    | none => if r.id = i then some r else none

/-- What a record with a given id becomes once the batch `rs` has been
upserted: the last batch record with that id, if any, else itself. -/
def patchBy {α : Type} (rs : List (StoredRecord α)) (x : StoredRecord α) :
    StoredRecord α :=
  (lastWith rs x.id).getD x

theorem lastWith_id {α : Type} (rs : List (StoredRecord α)) (i : Str)
    (y : StoredRecord α) (h : lastWith rs i = some y) : y.id = i := by
  induction rs with
  | nil => simp [lastWith] at h
  | cons r t ih =>
    simp only [lastWith] at h
    cases ht : lastWith t i with
    | some z =>
      rw [ht] at h
      cases h
      exact ih ht
    | none =>
      rw [ht] at h
      by_cases hid : r.id = i
      · rw [if_pos hid] at h
        cases h
        exact hid
      · rw [if_neg hid] at h
        cases h

theorem lastWith_mem {α : Type} (rs : List (StoredRecord α)) (i : Str)
    (y : StoredRecord α) (h : lastWith rs i = some y) : y ∈ rs := by
  induction rs with
  | nil => simp [lastWith] at h
  | cons r t ih =>
    simp only [lastWith] at h
    cases ht : lastWith t i with
    | some z =>
      rw [ht] at h
      cases h
      exact List.mem_cons_of_mem r (ih ht)
    | none =>
      rw [ht] at h
      by_cases hid : r.id = i
      · rw [if_pos hid] at h
        cases h
        exact List.mem_cons_self _ t
      · rw [if_neg hid] at h
        cases h

theorem lastWith_eq_none_iff {α : Type} (rs : List (StoredRecord α)) (i : Str) :
    lastWith rs i = none ↔ ∀ r ∈ rs, r.id ≠ i := by
  constructor
  · intro h x hx hid
    induction rs with
    | nil => simp at hx
    | cons r t ih =>
      simp only [lastWith] at h
      cases ht : lastWith t i with
      | some z =>
        rw [ht] at h
        cases h
      | none =>
        rw [ht] at h
        rcases List.mem_cons.mp hx with hx' | hx'
        · subst hx'
          rw [if_pos hid] at h
          cases h
        · exact ih ht hx'
  · intro h
    cases hy : lastWith rs i with
    | none => rfl
    | some y =>
      exact absurd (lastWith_id rs i y hy) (h y (lastWith_mem rs i y hy))

theorem mem_upsertOne_of_id {α : Type} (s : Store α) (r x : StoredRecord α)
    (hx : x ∈ upsertOne s r) (hid : x.id = r.id) : x = r := by
  rw [upsertOne] at hx
  split at hx
  · rcases List.mem_map.mp hx with ⟨z, hz, hzx⟩
    by_cases h : z.id = r.id
    · rw [if_pos h] at hzx
      exact hzx.symm
    · rw [if_neg h] at hzx
      subst hzx
      exact absurd hid h
  · rename_i hany
    rcases List.mem_append.mp hx with h | h
    · exact absurd hid ((by simpa using hany : ∀ z ∈ s, ¬ z.id = r.id) x h)
    · simpa using h

theorem presentId_upsertOne {α : Type} (s : Store α) (r : StoredRecord α)
    (i : Str) (h : presentId s i = true) :
    presentId (upsertOne s r) i = true := by
  rcases (by simpa [presentId] using h : ∃ x ∈ s, x.id = i) with ⟨x, hx, hxi⟩
  rw [upsertOne]
  split
  · rw [presentId, List.any_map]
    simp only [List.any_eq_true, Function.comp_apply, decide_eq_true_eq]
    refine ⟨x, hx, ?_⟩
    by_cases hz : x.id = r.id
    · rw [if_pos hz, ← hz]
      exact hxi
    · rw [if_neg hz]
      exact hxi
  · rw [presentId]
    simp only [List.any_eq_true, decide_eq_true_eq]
    exact ⟨x, List.mem_append_left _ hx, hxi⟩

theorem presentId_upsertOne_self {α : Type} (s : Store α) (r : StoredRecord α) :
    presentId (upsertOne s r) r.id = true := by
  rw [upsertOne]
  split
  · rename_i hany
    rcases (by simpa using hany : ∃ x ∈ s, x.id = r.id) with ⟨x, hx, hxi⟩
    rw [presentId, List.any_map]
    simp only [List.any_eq_true, Function.comp_apply, decide_eq_true_eq]
    exact ⟨x, hx, by rw [if_pos hxi]⟩
  · rw [presentId]
    simp

theorem addRecords_cons {α : Type} (s : Store α) (r : StoredRecord α)
    (t : List (StoredRecord α)) :
    addRecords s (r :: t) = addRecords (upsertOne s r) t := rfl

theorem presentId_addRecords {α : Type} (s : Store α)
    (rs : List (StoredRecord α)) (i : Str) (h : presentId s i = true) :
    presentId (addRecords s rs) i = true := by
  induction rs generalizing s with
  | nil => exact h
  | cons r t ih => exact ih (upsertOne s r) (presentId_upsertOne s r i h)

theorem presentId_addRecords_of_mem {α : Type} (s : Store α)
    (rs : List (StoredRecord α)) (r : StoredRecord α) (hr : r ∈ rs) :
    presentId (addRecords s rs) r.id = true := by
  induction rs generalizing s with
  | nil => simp at hr
  | cons q t ih =>
    rcases List.mem_cons.mp hr with h | h
    · subst h
      exact presentId_addRecords (upsertOne s r) t r.id
        (presentId_upsertOne_self s r)
    · exact ih (upsertOne s q) h

/-- A batch that never writes the id `i` leaves the records with id `i`
untouched. -/
theorem mem_addRecords_of_untouched {α : Type} (rs : List (StoredRecord α))
    (s : Store α) (i : Str) (hno : ∀ r ∈ rs, r.id ≠ i) (x : StoredRecord α)
    (hxi : x.id = i) : x ∈ addRecords s rs ↔ x ∈ s := by
  induction rs generalizing s with
  | nil => exact Iff.rfl
  | cons r t ih =>
    rw [addRecords_cons,
      ih (upsertOne s r) (fun q hq => hno q (List.mem_cons_of_mem r hq))]
    have hri : r.id ≠ i := hno r (List.mem_cons_self r t)
    rw [upsertOne]
    split
    · constructor
      · intro hx
        rcases List.mem_map.mp hx with ⟨z, hz, hzx⟩
        by_cases h : z.id = r.id
        · rw [if_pos h] at hzx
          subst hzx
          exact absurd hxi hri
        · rw [if_neg h] at hzx
          subst hzx
          exact hz
      · intro hx
        refine List.mem_map.mpr ⟨x, hx, ?_⟩
        rw [if_neg (fun hc => hri (hc.symm.trans hxi))]
    · simp only [List.mem_append, List.mem_singleton]
      constructor
      · rintro (h | h)
        · exact h
        · subst h
          exact absurd hxi hri
      · exact Or.inl

/-- Every record present after a batch upsert is a fixed point of that
batch's patching: the batch rewrites it to itself. -/
theorem patchBy_fixed {α : Type} (rs : List (StoredRecord α)) (s : Store α)
    (x : StoredRecord α) (hx : x ∈ addRecords s rs) : patchBy rs x = x := by
  induction rs generalizing s with
  | nil => rfl
  | cons r t ih =>
    rw [addRecords_cons] at hx
    have hpt := ih (upsertOne s r) hx
    rw [patchBy, lastWith]
    cases hlt : lastWith t x.id with
    | some y =>
      simp only [hlt]
      rw [patchBy, hlt] at hpt
      simpa using hpt
    | none =>
      simp only [hlt]
      by_cases hid : x.id = r.id
      · rw [if_pos hid.symm]
        have hno : ∀ q ∈ t, q.id ≠ x.id := (lastWith_eq_none_iff t x.id).mp hlt
        have hx' : x ∈ upsertOne s r :=
          (mem_addRecords_of_untouched t (upsertOne s r) x.id hno x rfl).mp hx
        have hxr := mem_upsertOne_of_id s r x hx' hid
        simp [hxr]
      · rw [if_neg (fun hc => hid hc.symm)]
        rfl

theorem patchBy_cons {α : Type} (r : StoredRecord α)
    (t : List (StoredRecord α)) (x : StoredRecord α) :
    patchBy (r :: t) x = patchBy t (if x.id = r.id then r else x) := by
  have hid : (if x.id = r.id then r else x).id = x.id := by
    split
    · rename_i h
      exact h.symm
    · rfl
  rw [patchBy, patchBy, hid, lastWith]
  cases hlt : lastWith t x.id with
  | some y =>
    simp only [hlt]
    rfl
  | none =>
    simp only [hlt]
    by_cases h : x.id = r.id
    · rw [if_pos h.symm, if_pos h]
      rfl
    · rw [if_neg (fun hc => h hc.symm), if_neg h]

/-- Upserting a batch whose ids are all already present only rewrites in
place: no record is appended, every record is patched. -/
theorem addRecords_replay {α : Type} (rs : List (StoredRecord α)) (s : Store α)
    (hpres : ∀ r ∈ rs, presentId s r.id = true) :
    addRecords s rs = s.map (patchBy rs) := by
  induction rs generalizing s with
  | nil =>
    rw [addRecords]
    simp only [List.foldl_nil]
    rw [show patchBy ([] : List (StoredRecord α)) = id from funext fun x => rfl]
    simp
  | cons r t ih =>
    rw [addRecords_cons]
    have hup : upsertOne s r = s.map (fun x => if x.id = r.id then r else x) := by
      rw [upsertOne,
        if_pos (show (s.any fun x => x.id = r.id) = true from
          hpres r (List.mem_cons_self r t))]
    have hpres' : ∀ q ∈ t, presentId (upsertOne s r) q.id = true :=
      fun q hq => presentId_upsertOne s r q.id (hpres q (List.mem_cons_of_mem r hq))
    rw [ih (upsertOne s r) hpres', hup, List.map_map]
    refine List.map_congr_left fun x hx => ?_
    rw [Function.comp_apply, ← patchBy_cons]

/-- Re-adding a batch that was just added leaves the store unchanged. -/
theorem addRecords_idempotent {α : Type} (s : Store α)
    (rs : List (StoredRecord α)) :
    addRecords (addRecords s rs) rs = addRecords s rs := by
  rw [addRecords_replay rs (addRecords s rs)
    (fun r hr => presentId_addRecords_of_mem s rs r hr)]
  rw [List.map_congr_left (fun x hx => patchBy_fixed rs s x hx)]
  simp

/-!
## Ingestion pipeline (`ingest_document`, lines 83-146)

The filesystem is an oracle `fs : Str → Option Str` standing for what
`load_text_file` / `load_docx_file` deliver (`none` on any read error; for
`.docx` the oracle's value is the paragraph text already joined by newlines).
The Embedding Provider `get_openai_embedding` is an oracle
`embed : Str → Option α`.
-/

/-- `os.path.basename`: the part of the path after the last `/`. -/
def basename (p : Str) : Str :=
  (p.reverse.takeWhile (fun c => c ≠ '/')).reverse

/-- The extension part of `os.path.splitext` (dot included): everything from
the last dot of the basename, except that leading dots of the basename do not
begin an extension. -/
def splitext_ext (p : Str) : Str :=
  if ((basename p).dropWhile (fun c => c = '.')).any (fun c => c = '.') then
    '.' :: ((basename p).reverse.takeWhile (fun c => c ≠ '.')).reverse
  else []

/-- Line 131: `sane_title = "".join(c if c.isalnum() else "_" for c in
document_title)`.  Python's `str.isalnum` is the Unicode-aware alphanumeric
test of the runtime's Unicode character database (it accepts, e.g., `'é'`);
that database is external to this development, so the test is supplied as the
oracle `isalnum` and every theorem about ids holds for every classifier — in
particular for the exact one of the Python runtime. -/
def sane_title (isalnum : Char → Bool) (document_title : Str) : Str :=
  document_title.map (fun c => if isalnum c then c else '_')

/-- Line 132: the stored id `sane_title ++ "_chunk_" ++ chunk_sequence_id`. -/
def chunkId (isalnum : Char → Bool) (document_title : Str)
    (chunk_sequence_id : Nat) : Str :=
  sane_title isalnum document_title ++ "_chunk_".data
    ++ (Nat.repr chunk_sequence_id).data

/-- The four parallel accumulator lists of the ingestion loop (line 111). -/
structure IngestLists (α : Type) where
  embeddings_to_add : List α
  documents_to_add : List Str
  metadatas_to_add : List Metadata
  ids_to_add : List Str
deriving DecidableEq

/-- The metadata dictionary built at lines 122-126 for chunk number
`chunk_sequence_id` (1-based) with text `chunk`. -/
def chunkMetadata (file_name document_title content_type : Str)
    (chunk_sequence_id : Nat) (chunk : Str) : Metadata :=
  { source_file_name := file_name
    document_title := document_title
    content_type := content_type
    chunk_sequence_id := chunk_sequence_id
    original_text_preview := some (chunk.take 200 ++ "...".data)
    timestamp := none }

/-- One pass of the `for i, chunk in enumerate(chunks)` loop body
(lines 113-132): `chunk_sequence_id = i + 1`; ask the Embedding Provider; on
failure `continue` (skip only this chunk); on success append the embedding,
the chunk, its metadata and its id to the four parallel lists. -/
def ingestStep {α : Type} (isalnum : Char → Bool) (embed : Str → Option α)
    (file_name document_title content_type : Str) (acc : IngestLists α)
    (ic : Nat × Str) : IngestLists α :=
  match embed ic.2 with
  | none => acc
  | some v =>
    { embeddings_to_add := acc.embeddings_to_add ++ [v]
      documents_to_add := acc.documents_to_add ++ [ic.2]
      metadatas_to_add := acc.metadatas_to_add
        ++ [chunkMetadata file_name document_title content_type (ic.1 + 1) ic.2]
      ids_to_add := acc.ids_to_add ++ [chunkId isalnum document_title (ic.1 + 1)] }

/-- The whole ingestion loop over the enumerated chunks. -/
def ingestLists {α : Type} (isalnum : Char → Bool) (embed : Str → Option α)
    (file_name document_title content_type : Str) (chunks : List Str) :
    IngestLists α :=
  chunks.enum.foldl
    (ingestStep isalnum embed file_name document_title content_type)
    ⟨[], [], [], []⟩

/-- Reassembly of the parallel lists handed to `collection.add`
(lines 136-141) into records of the Vector Store model. -/
def zipRecords {α : Type} (embeddings : List α) (documents : List Str)
    (metadatas : List Metadata) (ids : List Str) : List (StoredRecord α) :=
  (ids.zip (embeddings.zip (documents.zip metadatas))).map
    (fun x => ⟨x.1, x.2.1, x.2.2.1, x.2.2.2⟩)

/-- The records one `ingest_document` call writes. -/
def recordsWritten {α : Type} (isalnum : Char → Bool) (embed : Str → Option α)
    (file_name document_title content_type : Str) (chunks : List Str) :
    List (StoredRecord α) :=
  zipRecords
    (ingestLists isalnum embed file_name document_title content_type
      chunks).embeddings_to_add
    (ingestLists isalnum embed file_name document_title content_type
      chunks).documents_to_add
    (ingestLists isalnum embed file_name document_title content_type
      chunks).metadatas_to_add
    (ingestLists isalnum embed file_name document_title content_type
      chunks).ids_to_add

/-- The record the loop body builds for chunk index `i` (0-based) with text
`chunk` and embedding `v`. -/
def mkStoredRecord {α : Type} (isalnum : Char → Bool)
    (file_name document_title content_type : Str)
    (i : Nat) (chunk : Str) (v : α) : StoredRecord α :=
  { id := chunkId isalnum document_title (i + 1)
    embedding := v
    document := chunk
    metadata := chunkMetadata file_name document_title content_type (i + 1) chunk }

/-- The extension dispatch of lines 92-98: `.txt` and `.yaml` go through
`load_text_file`, `.docx` through `load_docx_file` (both modelled by the
oracle `fs`); anything else is skipped with a warning. -/
abbrev supported_extension (file_path : Str) : Prop :=
  (splitext_ext file_path).map Char.toLower = ".txt".data
    ∨ (splitext_ext file_path).map Char.toLower = ".yaml".data
    ∨ (splitext_ext file_path).map Char.toLower = ".docx".data

/-- `ingest_document(file_path, document_title, content_type)`
(lines 83-146).  Result: the Python return value (always `None`, modelled as
`none : Option Nat`) and the collection afterwards (`none` when no collection
was initialized).  Early exits: no collection; unsupported extension; loader
failure; empty text; no chunks.  Otherwise the loop builds the four parallel
lists and, when `documents_to_add` is non-empty, performs one batched
`collection.add`. -/
def ingest_document {α : Type} (isalnum : Char → Bool)
    (embed : Str → Option α) (fs : Str → Option Str)
    (collection : Option (Store α)) (file_path document_title content_type : Str) :
    Option Nat × Option (Store α) :=
  match collection with
  | none => (none, none)
  | some store =>
    if supported_extension file_path then
      match fs file_path with
      | none => (none, some store)
      | some text_content =>
        if text_content = [] then (none, some store)
        else
          if chunk_text text_content 1200 150 = [] then (none, some store)
          else
            if (ingestLists isalnum embed (basename file_path) document_title
                content_type (chunk_text text_content 1200 150)).documents_to_add
                ≠ [] then
              (none, some (addRecords store
                (recordsWritten isalnum embed (basename file_path) document_title
                  content_type (chunk_text text_content 1200 150))))
            else (none, some store)
    else (none, some store)

/-- Pointwise concatenation of two accumulator quadruples. -/
def listsAppend {α : Type} (a b : IngestLists α) : IngestLists α :=
  ⟨a.embeddings_to_add ++ b.embeddings_to_add,
    a.documents_to_add ++ b.documents_to_add,
    a.metadatas_to_add ++ b.metadatas_to_add,
    a.ids_to_add ++ b.ids_to_add⟩

theorem listsAppend_nil_right {α : Type} (a : IngestLists α) :
    listsAppend a ⟨[], [], [], []⟩ = a := by
  cases a
  simp [listsAppend]

theorem listsAppend_assoc {α : Type} (a b c : IngestLists α) :
    listsAppend (listsAppend a b) c = listsAppend a (listsAppend b c) := by
  cases a
  cases b
  cases c
  simp [listsAppend]

theorem ingestStep_eq_append {α : Type} (isalnum : Char → Bool) (embed : Str → Option α)
    (fn t ct : Str) (acc : IngestLists α) (ic : Nat × Str) :
    ingestStep isalnum embed fn t ct acc ic
      = listsAppend acc (ingestStep isalnum embed fn t ct ⟨[], [], [], []⟩ ic) := by
  cases h : embed ic.2 with
  | none =>
    simp only [ingestStep, h]
    exact (listsAppend_nil_right acc).symm
  | some v =>
    simp only [ingestStep, h]
    rfl

theorem foldl_ingestStep_append {α : Type} (isalnum : Char → Bool) (embed : Str → Option α)
    (fn t ct : Str) :
    ∀ (l : List (Nat × Str)) (acc : IngestLists α),
      l.foldl (ingestStep isalnum embed fn t ct) acc
        = listsAppend acc (l.foldl (ingestStep isalnum embed fn t ct) ⟨[], [], [], []⟩) := by
  intro l
  induction l with
  | nil => exact fun acc => (listsAppend_nil_right acc).symm
  | cons ic l ih =>
    intro acc
    rw [List.foldl_cons, List.foldl_cons, ih (ingestStep isalnum embed fn t ct acc ic),
      ih (ingestStep isalnum embed fn t ct ⟨[], [], [], []⟩ ic),
      ingestStep_eq_append isalnum embed fn t ct acc ic]
    exact listsAppend_assoc _ _ _

/-- The loop builds, across its four parallel lists, exactly one record per
chunk whose embedding succeeded, in order. -/
theorem zipRecords_foldl_ingestStep {α : Type} (isalnum : Char → Bool) (embed : Str → Option α)
    (fn t ct : Str) :
    ∀ l : List (Nat × Str),
      zipRecords
          (l.foldl (ingestStep isalnum embed fn t ct) ⟨[], [], [], []⟩).embeddings_to_add
          (l.foldl (ingestStep isalnum embed fn t ct) ⟨[], [], [], []⟩).documents_to_add
          (l.foldl (ingestStep isalnum embed fn t ct) ⟨[], [], [], []⟩).metadatas_to_add
          (l.foldl (ingestStep isalnum embed fn t ct) ⟨[], [], [], []⟩).ids_to_add
        = l.filterMap (fun ic => (embed ic.2).map (mkStoredRecord isalnum fn t ct ic.1 ic.2)) := by
  intro l
  induction l with
  | nil => rfl
  | cons ic l ih =>
    rw [List.foldl_cons,
      foldl_ingestStep_append isalnum embed fn t ct l (ingestStep isalnum embed fn t ct ⟨[], [], [], []⟩ ic),
      List.filterMap_cons]
    cases h : embed ic.2 with
    | none =>
      simp only [ingestStep, h]
      simpa [listsAppend] using ih
    | some v =>
      simp only [ingestStep, h, listsAppend, List.nil_append, List.singleton_append]
      simp only [zipRecords, List.zip_cons_cons, List.map_cons] at ih ⊢
      rw [ih]
      rfl

theorem recordsWritten_eq {α : Type} (isalnum : Char → Bool) (embed : Str → Option α)
    (fn t ct : Str) (chunks : List Str) :
    recordsWritten isalnum embed fn t ct chunks
      = chunks.enum.filterMap
          (fun ic => (embed ic.2).map (mkStoredRecord isalnum fn t ct ic.1 ic.2)) :=
  zipRecords_foldl_ingestStep isalnum embed fn t ct chunks.enum

theorem recordsWritten_nil_of_documents_nil {α : Type} (isalnum : Char → Bool) (embed : Str → Option α)
    (fn t ct : Str) (chunks : List Str)
    (h : (ingestLists isalnum embed fn t ct chunks).documents_to_add = []) :
    recordsWritten isalnum embed fn t ct chunks = [] := by
  rw [recordsWritten, h]
  simp [zipRecords]

/-- C5: during ingestion of a loaded, non-empty document, an Embedding
Provider failure on one chunk skips only that chunk (it contributes no stored
record) and the loop continues; every chunk whose embedding succeeds is still
written, in order, by the single batched store write. -/
theorem ingest_document_skips_only_failed_chunks {α : Type}
    (isalnum : Char → Bool) (embed : Str → Option α) (fs : Str → Option Str) (store : Store α)
    (p t ct text : Str) (hext : supported_extension p) (hfs : fs p = some text)
    (hne : text ≠ []) :
    (ingest_document isalnum embed fs (some store) p t ct).2
      = some (addRecords store
          ((chunk_text text 1200 150).enum.filterMap
            (fun ic => (embed ic.2).map
              (mkStoredRecord isalnum (basename p) t ct ic.1 ic.2)))) := by
  have hch : chunk_text text 1200 150 ≠ [] := by
    rw [chunk_text, if_neg hne]
    exact chunkLoop_ne_nil text 1200 150 text.length
      (List.length_pos.mpr hne) (List.length_pos.mpr hne)
  simp only [ingest_document]
  rw [if_pos hext]
  simp only [hfs]
  rw [if_neg hne, if_neg hch]
  by_cases hd : (ingestLists isalnum embed (basename p) t ct
      (chunk_text text 1200 150)).documents_to_add = []
  · rw [if_neg (not_not_intro hd), ← recordsWritten_eq,
      recordsWritten_nil_of_documents_nil isalnum embed (basename p) t ct _ hd]
    rfl
  · rw [if_pos hd, recordsWritten_eq]

theorem ingest_document_skips_only_failed_chunks_witness :
    (ingest_document Char.isAlphanum (fun c => if c = "hi".data then some 7 else none)
        (fun _ => some "hi".data) (some ([] : Store Nat))
        "d.txt".data "T".data "ref".data).2
      = some (addRecords []
          ((chunk_text "hi".data 1200 150).enum.filterMap
            (fun ic => ((fun c => if c = "hi".data then some 7 else none) ic.2).map
              (mkStoredRecord Char.isAlphanum (basename "d.txt".data) "T".data "ref".data
                ic.1 ic.2)))) :=
  ingest_document_skips_only_failed_chunks Char.isAlphanum
    (fun c => if c = "hi".data then some 7 else none) (fun _ => some "hi".data)
    [] "d.txt".data "T".data "ref".data "hi".data (by decide) rfl (by decide)

/-- C6: every record written by the ingestion loop carries the id built from
the title with every non-alphanumeric character replaced by an underscore,
followed by the literal `"_chunk_"` and the decimal 1-based sequence index —
the same index recorded in its metadata.  The alphanumeric test (Python's
Unicode-aware `str.isalnum`, line 131) is the `isalnum` oracle, so this holds
for every classifier — in particular the Python runtime's exact one. -/
theorem stored_record_id_format {α : Type} (isalnum : Char → Bool) (embed : Str → Option α)
    (fn title ct : Str) (chunks : List Str) (r : StoredRecord α)
    (hr : r ∈ recordsWritten isalnum embed fn title ct chunks) :
    r.id = sane_title isalnum title ++ "_chunk_".data
        ++ (Nat.repr r.metadata.chunk_sequence_id).data := by
  rw [recordsWritten_eq] at hr
  rcases List.mem_filterMap.mp hr with ⟨ic, hic, hmap⟩
  cases h : embed ic.2 with
  | none =>
    rw [h] at hmap
    cases hmap
  | some v =>
    rw [h, Option.map_some'] at hmap
    cases hmap
    rfl

theorem stored_record_id_format_witness :
    mkStoredRecord Char.isAlphanum "f.txt".data "A B".data "ref".data 0 "hi".data 5
        ∈ recordsWritten Char.isAlphanum (fun _ => some 5) "f.txt".data "A B".data "ref".data
            ["hi".data] ∧
    (mkStoredRecord Char.isAlphanum "f.txt".data "A B".data "ref".data 0 "hi".data 5).id
      = sane_title Char.isAlphanum "A B".data ++ "_chunk_".data
        ++ (Nat.repr (mkStoredRecord Char.isAlphanum "f.txt".data "A B".data "ref".data 0
              "hi".data 5).metadata.chunk_sequence_id).data :=
  ⟨by decide,
    stored_record_id_format Char.isAlphanum (fun _ => some 5) "f.txt".data "A B".data
      "ref".data ["hi".data] _ (by decide)⟩

/-- C4, counterexample: when the file cannot be read, `ingest_document` does
not return the count `0` of records written — it returns `None` (it has no
return statement with a value on any path). -/
theorem ingest_document_no_count_counterexample :
    (ingest_document Char.isAlphanum (fun _ => some 0) (fun _ => none) (some ([] : Store Nat))
        "a.txt".data "T".data "ref".data).1 = none ∧
    (ingest_document Char.isAlphanum (fun _ => some 0) (fun _ => none) (some ([] : Store Nat))
        "a.txt".data "T".data "ref".data).1 ≠ some 0 := by
  decide

/-- C4, amended: `ingest_document` never returns a record count — its return
value is `None` on every path; it fails soft, writing zero records (the store
is unchanged) when the file cannot be read or the loaded text is empty (which
is also the only way chunking yields no chunks), and, being a total function
into normal results, it never raises past its own boundary. -/
theorem ingest_document_returns_none_and_soft_fails {α : Type}
    (isalnum : Char → Bool) (embed : Str → Option α) (fs : Str → Option Str) (store : Store α)
    (p t ct : Str) :
    (ingest_document isalnum embed fs (some store) p t ct).1 = none ∧
    (fs p = none ∨ fs p = some [] →
      (ingest_document isalnum embed fs (some store) p t ct).2 = some store) := by
  constructor
  · simp only [ingest_document]
    by_cases hext : supported_extension p
    · rw [if_pos hext]
      cases hfs : fs p with
      | none => rfl
      | some text =>
        dsimp only
        by_cases htext : text = []
        · rw [if_pos htext]
        · rw [if_neg htext]
          by_cases hch : chunk_text text 1200 150 = []
          · rw [if_pos hch]
          · rw [if_neg hch]
            by_cases hd : (ingestLists isalnum embed (basename p) t ct
                (chunk_text text 1200 150)).documents_to_add = []
            · rw [if_neg (not_not_intro hd)]
            · rw [if_pos hd]
    · rw [if_neg hext]
  · intro hfs
    simp only [ingest_document]
    by_cases hext : supported_extension p
    · rw [if_pos hext]
      rcases hfs with hfs | hfs
      · simp only [hfs]
      · simp only [hfs]
        simp
    · rw [if_neg hext]

theorem ingest_document_returns_none_and_soft_fails_witness :
    (ingest_document Char.isAlphanum (fun _ => some 0) (fun _ => none) (some ([] : Store Nat))
        "b.txt".data "T".data "ref".data).1 = none ∧
    ((fun (_ : Str) => (none : Option Str)) "b.txt".data = none ∨
        (fun (_ : Str) => (none : Option Str)) "b.txt".data = some [] →
      (ingest_document Char.isAlphanum (fun _ => some 0) (fun _ => none) (some ([] : Store Nat))
          "b.txt".data "T".data "ref".data).2 = some []) :=
  ingest_document_returns_none_and_soft_fails Char.isAlphanum (fun _ => some 0)
    (fun _ => none) [] "b.txt".data "T".data "ref".data

/-- C3: re-ingesting the same document (same path, title, content type, file
contents and embedding behaviour) produces the same deterministic record ids,
so the second run only overwrites the first run's records: the store after
the second run is exactly the store after the first, and in particular the
record count stored for that title does not double. -/
theorem ingest_document_reingest_idempotent {α : Type}
    (isalnum : Char → Bool) (embed : Str → Option α) (fs : Str → Option Str) (s0 s1 : Store α)
    (p t ct : Str)
    (h : (ingest_document isalnum embed fs (some s0) p t ct).2 = some s1) :
    (ingest_document isalnum embed fs (some s1) p t ct).2 = some s1 ∧
    (((ingest_document isalnum embed fs (some s1) p t ct).2.getD []).filter
        (fun r => r.metadata.document_title = t)).length
      = (s1.filter (fun r => r.metadata.document_title = t)).length := by
  have hmain : (ingest_document isalnum embed fs (some s1) p t ct).2 = some s1 := by
    by_cases hext : supported_extension p
    · cases hfs : fs p with
      | none =>
        simp only [ingest_document]
        rw [if_pos hext]
        simp only [hfs]
      | some text =>
        by_cases htext : text = []
        · simp only [ingest_document]
          rw [if_pos hext]
          simp only [hfs]
          rw [if_pos htext]
        · by_cases hch : chunk_text text 1200 150 = []
          · simp only [ingest_document]
            rw [if_pos hext]
            simp only [hfs]
            rw [if_neg htext, if_pos hch]
          · by_cases hd : (ingestLists isalnum embed (basename p) t ct
                (chunk_text text 1200 150)).documents_to_add = []
            · simp only [ingest_document]
              rw [if_pos hext]
              simp only [hfs]
              rw [if_neg htext, if_neg hch, if_neg (not_not_intro hd)]
            · have hrun1 : (ingest_document isalnum embed fs (some s0) p t ct).2
                  = some (addRecords s0 (recordsWritten isalnum embed (basename p) t ct
                      (chunk_text text 1200 150))) := by
                simp only [ingest_document]
                rw [if_pos hext]
                simp only [hfs]
                rw [if_neg htext, if_neg hch, if_pos hd]
              rw [hrun1] at h
              have hs1 : addRecords s0 (recordsWritten isalnum embed (basename p) t ct
                  (chunk_text text 1200 150)) = s1 := Option.some_inj.mp h
              simp only [ingest_document]
              rw [if_pos hext]
              simp only [hfs]
              rw [if_neg htext, if_neg hch, if_pos hd, ← hs1,
                addRecords_idempotent]
    · simp only [ingest_document]
      rw [if_neg hext]
  refine ⟨hmain, ?_⟩
  rw [hmain]
  rfl

theorem ingest_document_reingest_idempotent_witness :
    (ingest_document Char.isAlphanum (fun _ => some 3) (fun _ => some "abc".data)
        (some [mkStoredRecord Char.isAlphanum "d.txt".data "T".data "ref".data 0 "abc".data 3])
        "d.txt".data "T".data "ref".data).2
      = some [mkStoredRecord Char.isAlphanum "d.txt".data "T".data "ref".data 0 "abc".data 3] ∧
    (((ingest_document Char.isAlphanum (fun _ => some 3) (fun _ => some "abc".data)
          (some [mkStoredRecord Char.isAlphanum "d.txt".data "T".data "ref".data 0 "abc".data 3])
          "d.txt".data "T".data "ref".data).2.getD []).filter
        (fun r => r.metadata.document_title = "T".data)).length
      = ([mkStoredRecord Char.isAlphanum "d.txt".data "T".data "ref".data 0 "abc".data 3].filter
          (fun r => r.metadata.document_title = "T".data)).length :=
  ingest_document_reingest_idempotent Char.isAlphanum (fun _ => some 3)
    (fun _ => some "abc".data) []
    [mkStoredRecord Char.isAlphanum "d.txt".data "T".data "ref".data 0 "abc".data 3]
    "d.txt".data "T".data "ref".data (by decide)

/-!
## Retrieval service (`retrieve_relevant_chunks`, lines 149-175)

The nearest-neighbour query is delegated to ChromaDB; it is an oracle
`queryFn : α → Nat → Option φ → Option QueryResults` (`none` stands for the
`except` branch of the `collection.query` call; `φ` is the opaque type of the
`where` filter dictionary).  Distance floats are modelled as rationals.  The
second result component counts the calls made to the Embedding Provider, so
that "never calls the Embedding Provider" is statable. -/

/-- The fields of the ChromaDB query-result dictionary that the shaping loop
reads (nested per-query lists, the code only uses index 0). -/
structure QueryResults where
  ids : List (List Str)
  documents : List (List Str)
  metadatas : List (List Metadata)
  distances : List (List ℚ)

/-- One shaped retrieval result (lines 165-170). -/
structure RetrievedRecord where
  id : Str
  text_chunk : Str
  metadata : Metadata
  similarity_score : Option ℚ

/-- The `{}` default metadata of line 168. -/
def emptyMetadata : Metadata := ⟨[], [], [], 0, none, none⟩

/-- The result-shaping loop of lines 161-174: if ids are present and the
first id row is non-empty, build one record per entry of that row, reading
the parallel rows with their Python fallbacks (`"N/A"`, `{}`, `None`) and
`similarity_score = 1 - distance`. -/
def formatResults (results : QueryResults) : List RetrievedRecord :=
  if results.ids ≠ [] ∧ results.ids.headD [] ≠ [] then
    (List.range (results.ids.headD []).length).map (fun i =>
      { id := (results.ids.headD []).getD i []
        text_chunk :=
          if results.documents ≠ [] ∧ results.documents.headD [] ≠ [] then
            (results.documents.headD []).getD i "N/A".data
          else "N/A".data
        metadata :=
          if results.metadatas ≠ [] ∧ results.metadatas.headD [] ≠ [] then
            (results.metadatas.headD []).getD i emptyMetadata
          else emptyMetadata
        similarity_score :=
          (if results.distances ≠ [] ∧ results.distances.headD [] ≠ [] then
            (results.distances.headD [])[i]?
          else none).map (fun d => 1 - d) })
  else []

/-- `retrieve_relevant_chunks(query_text, filters=None, n_results=5)`
(lines 149-175): return `[]` if the collection is missing or the query text
is empty — before any embedding request; then embed the query (`[]` on
failure), run the store query (`[]` on failure) and shape the results.  The
second component counts Embedding Provider calls. -/
def retrieve_relevant_chunks {α φ : Type} (embed : Str → Option α)
    (queryFn : α → Nat → Option φ → Option QueryResults)
    (collection : Option (Store α)) (query_text : Str) (filters : Option φ)
    (n_results : Nat) : List RetrievedRecord × Nat :=
  if collection.isNone ∨ query_text = [] then ([], 0)
  else
    match embed query_text with
    | none => ([], 1)
    | some query_embedding =>
      match queryFn query_embedding n_results filters with
      | none => ([], 1)
      | some results => (formatResults results, 1)

/-- C7: retrieval on an empty query string returns the empty sequence with
zero Embedding Provider calls, whatever the provider, query oracle, store,
filters and top-k are — the result is independent of the Embedding Provider's
behaviour. -/
theorem retrieve_empty_query {α φ : Type} (embed : Str → Option α)
    (queryFn : α → Nat → Option φ → Option QueryResults)
    (collection : Option (Store α)) (filters : Option φ) (n_results : Nat) :
    retrieve_relevant_chunks embed queryFn collection [] filters n_results
      = ([], 0) := by
  rw [retrieve_relevant_chunks, if_pos (Or.inr rfl)]

/-!
## Interaction logger (`ingest_interaction_text`, lines 177-222)

The two `datetime.now()` strings formatted at lines 186 and 190 are passed in
as the parameters `timestamp` and `ts_compact`.
-/

/-- The combined interaction text of line 187. -/
def interactionText (timestamp user_input ai_response : Str) : Str :=
  "Interaction at ".data ++ timestamp ++ ":\nUser: ".data ++ user_input
    ++ "\nAletheia: ".data ++ ai_response

/-- The document title of line 190. -/
def interactionTitle (ts_compact : Str) : Str :=
  "Interaction_".data ++ ts_compact

/-- The metadata dictionary of lines 203-209. -/
def interactionMetadata (timestamp ts_compact : Str) : Metadata :=
  { source_file_name := "LiveSession".data
    document_title := interactionTitle ts_compact
    content_type := "LiveInteraction".data
    chunk_sequence_id := 1
    original_text_preview := none
    timestamp := some timestamp }

/-- `ingest_interaction_text(user_input, ai_response)` (lines 177-222).
Result: the collection afterwards, the number of Embedding Provider calls and
the number of Vector Store writes.  The whole interaction is embedded as one
chunk; on embedding failure it is skipped; otherwise one `collection.add` of
the single record with id `doc_title ++ "_chunk_1"`. -/
def ingest_interaction_text {α : Type} (embed : Str → Option α)
    (collection : Option (Store α)) (user_input ai_response : Str)
    (timestamp ts_compact : Str) : Option (Store α) × Nat × Nat :=
  match collection with
  | none => (none, 0, 0)
  | some store =>
    match embed (interactionText timestamp user_input ai_response) with
    | none => (some store, 1, 0)
    | some embedding_vector =>
      (some (addRecords store
        [⟨interactionTitle ts_compact ++ "_chunk_1".data, embedding_vector,
          interactionText timestamp user_input ai_response,
          interactionMetadata timestamp ts_compact⟩]), 1, 1)

/-- C9: for every user and assistant text, when the Embedding Provider
succeeds on the formatted interaction, logging it makes exactly one embedding
call and exactly one Vector Store write, of a batch of exactly one record,
whose metadata carries content type `"LiveInteraction"` and
`chunk_sequence_id = 1`. -/
theorem ingest_interaction_one_record {α : Type} (embed : Str → Option α)
    (store : Store α) (user_input ai_response timestamp ts_compact : Str)
    (v : α)
    (h : embed (interactionText timestamp user_input ai_response) = some v) :
    ingest_interaction_text embed (some store) user_input ai_response
        timestamp ts_compact
      = (some (addRecords store
          [⟨interactionTitle ts_compact ++ "_chunk_1".data, v,
            interactionText timestamp user_input ai_response,
            interactionMetadata timestamp ts_compact⟩]), 1, 1) ∧
    (interactionMetadata timestamp ts_compact).content_type
      = "LiveInteraction".data ∧
    (interactionMetadata timestamp ts_compact).chunk_sequence_id = 1 := by
  refine ⟨?_, rfl, rfl⟩
  simp only [ingest_interaction_text, h]

theorem ingest_interaction_one_record_witness :
    ingest_interaction_text (fun _ => some 0) (some ([] : Store Nat))
        "hi".data "hello".data "2025-01-01 00:00:00".data "20250101_000000".data
      = (some (addRecords []
          [⟨interactionTitle "20250101_000000".data ++ "_chunk_1".data, 0,
            interactionText "2025-01-01 00:00:00".data "hi".data "hello".data,
            interactionMetadata "2025-01-01 00:00:00".data
              "20250101_000000".data⟩]), 1, 1) ∧
    (interactionMetadata "2025-01-01 00:00:00".data
        "20250101_000000".data).content_type = "LiveInteraction".data ∧
    (interactionMetadata "2025-01-01 00:00:00".data
        "20250101_000000".data).chunk_sequence_id = 1 :=
  ingest_interaction_one_record (fun _ => some 0) [] "hi".data "hello".data
    "2025-01-01 00:00:00".data "20250101_000000".data 0 rfl

end Aletheia

